import Mathlib

/-!
Verification of the `google` cloud-storage helper package
(`src/google/cloudstorage.go`) against its specification.

The package is a thin layer over an external object store, an external
HTTP client and the standard zip codec.  The external collaborators are
embedded by their contracts:

* the object store is a finite map from (bucket, path) to byte
  sequences; transport-level failures of a call (session establishment,
  interrupted copy, failed finalize) are collapsed into a Boolean
  oracle passed to each operation, and a failed write leaves the store
  unchanged (the store finalizes an object only on a successful close,
  so there is no partial-write visibility);
* byte sequences are `List Nat`;
* a run that aborts the process (the `log.Panic` in `Exists`, the nil
  dereference in `SaveNetworkFile`) is modelled as `Option.none`.

All definitions below are transcribed from the Go source; definitions
whose name ends in `Spec` restate wording of the specification and are
only used on the specification side of refinement theorems.
-/

namespace CloudStorage

/-- Byte sequences, the values stored in the object store. -/
abbrev Bytes := List Nat

/-- The external object store: a map from (bucket, path) to contents. -/
abbrev Store := String → String → Option Bytes

/-- Overwrite the object at (bucket, path) with `data`, leaving every
other location unchanged. -/
def storeInsert (s : Store) (bucket path : String) (data : Bytes) : Store :=
  fun b k => if b = bucket ∧ k = path then some data else s b k

/-- PutFile from the source: opens a writer to (bucket, path), copies
`data`, closes.  `tOk` is the transport oracle: when any of
`storage.NewClient`, `io.Copy` or `Writer.Close` fails the function
returns that error and the store is unchanged (the object is finalized
only on a successful close).  On success the object at (bucket, path)
equals `data` in full. -/
def PutFile (tOk : Bool) (store : Store) (bucket path : String) (data : Bytes) :
    Except String Unit × Store :=
  if tOk then (Except.ok Unit.unit, storeInsert store bucket path data)
  else (Except.error "storage.NewClient", store)

/-- GetFile from the source: opens a reader on (bucket, path) and reads
it to completion.  A missing object makes `NewReader` fail; `tOk` is
the transport oracle for the remaining failure modes. -/
def GetFile (tOk : Bool) (store : Store) (bucket path : String) : Except String Bytes :=
  if tOk then
    match store bucket path with
    | some data => Except.ok data
    | none => Except.error "Object.NewReader: storage: object does not exist"
  else Except.error "storage.NewClient"

/-- Outcome of the metadata (`Attrs`) call made by the existence check. -/
inductive AttrsOutcome where
  | found
  | notExist
  | otherError (msg : String)
deriving DecidableEq

/-- Exists from the source (named `ExistsObject` here).  The client
construction error is discarded (`client, _ := storage.NewClient`), so a
failed construction leaves a nil client and the method call on it
aborts: `clientOk = false` yields `none`.  Otherwise the `Attrs` error
is compared with `storage.ErrObjectNotExist` (false), any other error is
passed to `log.Panic` (abort, `none`), and no error means the object is
there (true). -/
def ExistsObject (clientOk : Bool) (o : AttrsOutcome) : Option Bool :=
  if clientOk then
    match o with
    | AttrsOutcome.notExist => some false
    | AttrsOutcome.otherError _ => none
    | AttrsOutcome.found => some true
  else none

/-- C3: if `PutFile` succeeds then the stored object at (bucket, path)
equals the written data in full, a subsequent `GetFile` with no
intervening writes returns exactly that data, and no other location is
touched (overwrite semantics, no partial-write visibility). -/
theorem putFile_then_getFile (tOk : Bool) (store store' : Store)
    (bucket path : String) (data : Bytes)
    (h : PutFile tOk store bucket path data = (Except.ok Unit.unit, store')) :
    store' bucket path = some data ∧
    GetFile true store' bucket path = Except.ok data ∧
    (∀ b k, ¬(b = bucket ∧ k = path) → store' b k = store b k) := by
  cases tOk with
  | false => simp [PutFile] at h
  | true =>
    simp only [PutFile, if_true] at h
    have hs : storeInsert store bucket path data = store' := congrArg Prod.snd h
    subst hs
    refine ⟨?_, ?_, ?_⟩
    · simp [storeInsert]
    · simp [GetFile, storeInsert]
    · intro b k hbk
      simp [storeInsert, hbk]

/-- Witness for C3 at a concrete store, bucket, path and payload. -/
theorem putFile_then_getFile_witness :
    ((PutFile true (fun _ _ => none) "bkt" "dir/f.json" [1, 2, 3]).2) "bkt" "dir/f.json"
      = some [1, 2, 3] :=
  (putFile_then_getFile true (fun _ _ => none)
    ((PutFile true (fun _ _ => none) "bkt" "dir/f.json" [1, 2, 3]).2)
    "bkt" "dir/f.json" [1, 2, 3] rfl).1

/-- C4: the existence check returns `false` exactly for the specific
object-not-found outcome of the metadata request, `true` exactly when
the request succeeds, and on any other failure (client construction,
auth, network, permission) it does not return at all but aborts; in
particular a transport or auth error is never reported as absence. -/
theorem existsObject_error_dispatch :
    (∀ clientOk o, ExistsObject clientOk o = some false ↔
        clientOk = true ∧ o = AttrsOutcome.notExist) ∧
    (∀ clientOk o, ExistsObject clientOk o = some true ↔
        clientOk = true ∧ o = AttrsOutcome.found) ∧
    (∀ m, ExistsObject true (AttrsOutcome.otherError m) = none) ∧
    (∀ o, ExistsObject false o = none) := by
  refine ⟨?_, ?_, ?_, ?_⟩
  · intro clientOk o; cases clientOk <;> cases o <;> simp [ExistsObject]
  · intro clientOk o; cases clientOk <;> cases o <;> simp [ExistsObject]
  · intro m; simp [ExistsObject]
  · intro o; simp [ExistsObject]

/-- ProcessFile from the source: fetch the object, hand the bytes to
the `process` callback and return its error (a Go `error` result is
`none` for nil, `some msg` otherwise).  The store is threaded through
unchanged: the helper itself never writes. -/
def ProcessFile (tGet : Bool) (store : Store) (bucket path : String)
    (process : Bytes → Option String) : Option String × Store :=
  match GetFile tGet store bucket path with
  | Except.error e => (some e, store)
  | Except.ok data => (process data, store)

/-- ProcessAndUpdateFile from the source: fetch the object, run the
`process` callback, and on its success put the produced bytes back to
the same (bucket, path); any error short-circuits. -/
def ProcessAndUpdateFile (tGet tPut : Bool) (store : Store) (bucket path : String)
    (process : Bytes → Except String Bytes) : Except String Unit × Store :=
  match GetFile tGet store bucket path with
  | Except.error e => (Except.error e, store)
  | Except.ok data =>
    match process data with
    | Except.error e => (Except.error e, store)
    | Except.ok newData => PutFile tPut store bucket path newData

/-- C6: `ProcessFile` never alters the stored object — the store after
the call is the store before it; on a successful fetch the result is
exactly the error of the callback on the fetched bytes, and on a fetch
failure that error is returned and the callback is never consulted (the
outcome is the same for every callback). -/
theorem processFile_pure (tGet : Bool) (store : Store) (bucket path : String)
    (process : Bytes → Option String) :
    (ProcessFile tGet store bucket path process).2 = store ∧
    (∀ data, GetFile tGet store bucket path = Except.ok data →
        (ProcessFile tGet store bucket path process).1 = process data) ∧
    (∀ e, GetFile tGet store bucket path = Except.error e →
        ProcessFile tGet store bucket path process = (some e, store) ∧
        ∀ g, ProcessFile tGet store bucket path g = (some e, store)) := by
  refine ⟨?_, ?_, ?_⟩
  · cases hg : GetFile tGet store bucket path <;> simp [ProcessFile, hg]
  · intro data hd; simp [ProcessFile, hd]
  · intro e he
    exact ⟨by simp [ProcessFile, he], fun g => by simp [ProcessFile, he]⟩

/-- Witness for C6 at a concrete store holding [7] at (b, f) and the
callback that always succeeds. -/
theorem processFile_pure_witness :
    (ProcessFile true (fun b k => if b = "b" ∧ k = "f" then some [7] else none)
        "b" "f" (fun _ => none)).1 = none :=
  (processFile_pure true (fun b k => if b = "b" ∧ k = "f" then some [7] else none)
    "b" "f" (fun _ => none)).2.1 [7] rfl

/-- C5: `ProcessAndUpdateFile` propagates a fetch error with no
write-back, propagates a callback error unchanged with no write-back
(the store is untouched), on callback success performs exactly the
write-back of the produced bytes to the same (bucket, path) — fully
replacing the prior content — and the whole call succeeds exactly when
the fetch, the callback and the write-back all succeed. -/
theorem processAndUpdateFile_spec (tGet tPut : Bool) (store : Store)
    (bucket path : String) (process : Bytes → Except String Bytes) :
    (∀ e, GetFile tGet store bucket path = Except.error e →
        ProcessAndUpdateFile tGet tPut store bucket path process = (Except.error e, store)) ∧
    (∀ data e, GetFile tGet store bucket path = Except.ok data →
        process data = Except.error e →
        ProcessAndUpdateFile tGet tPut store bucket path process = (Except.error e, store)) ∧
    (∀ data newData, GetFile tGet store bucket path = Except.ok data →
        process data = Except.ok newData →
        ProcessAndUpdateFile tGet tPut store bucket path process
          = PutFile tPut store bucket path newData) ∧
    (∀ data newData, GetFile tGet store bucket path = Except.ok data →
        process data = Except.ok newData →
        ProcessAndUpdateFile tGet true store bucket path process
          = (Except.ok Unit.unit, storeInsert store bucket path newData)) ∧
    ((ProcessAndUpdateFile tGet tPut store bucket path process).1 = Except.ok Unit.unit ↔
        tPut = true ∧ ∃ data newData, GetFile tGet store bucket path = Except.ok data ∧
          process data = Except.ok newData) := by
  refine ⟨?_, ?_, ?_, ?_, ?_⟩
  · intro e he; simp [ProcessAndUpdateFile, he]
  · intro data e hd hp; simp [ProcessAndUpdateFile, hd, hp]
  · intro data newData hd hp; simp [ProcessAndUpdateFile, hd, hp]
  · intro data newData hd hp; simp [ProcessAndUpdateFile, PutFile, hd, hp]
  · cases hg : GetFile tGet store bucket path with
    | error e => simp [ProcessAndUpdateFile, hg]
    | ok data =>
      cases hp : process data with
      | error e => simp [ProcessAndUpdateFile, hg, hp]
      | ok newData =>
        cases tPut <;> simp [ProcessAndUpdateFile, PutFile, hg, hp]

/-- Witness for C5: a failing callback has its error propagated
unchanged and the store left untouched. -/
theorem processAndUpdateFile_spec_witness :
    ProcessAndUpdateFile true true
        (fun b k => if b = "b" ∧ k = "f" then some [7] else none) "b" "f"
        (fun _ => Except.error "boom")
      = (Except.error "boom",
         fun b k => if b = "b" ∧ k = "f" then some [7] else none) :=
  (processAndUpdateFile_spec true true
    (fun b k => if b = "b" ∧ k = "f" then some [7] else none) "b" "f"
    (fun _ => Except.error "boom")).2.1 [7] "boom" rfl rfl

/-- An HTTP request as built by the source: method, url and the extra
headers added to it. -/
structure HttpRequest where
  method : String
  url : String
  headers : List (String × String)
deriving DecidableEq

/-- An HTTP response: status code and full body.  The body is all the
source ever reads; the status code is never inspected. -/
structure HttpResponse where
  status : Nat
  body : Bytes
deriving DecidableEq

/-- Observable outcome of `SaveNetworkFile`: the request handed to
`client.Do` (if the call got that far), the byte slice and error
returned to the caller, and the resulting store. -/
structure NetOutcome where
  sentRequest : Option HttpRequest
  bytes : Option Bytes
  err : Option String
  store : Store

/-- SaveNetworkFile from the source.  `reqOk` tells whether
`http.NewRequest` succeeds; `doResult` is the response delivered by
`client.Do` (`none` for a transport failure); `readOk` tells whether
`ioutil.ReadAll` on the body succeeds; `tPut` is the store transport
oracle for the final `PutFile`.  The headers map is `none` for a nil
map.  Faithful to the source, the headers loop dereferences the request
BEFORE the `http.NewRequest` error is checked; the loop body runs once
per map entry, so a failed request construction is a nil-pointer
dereference — modelled as `none` (abort) — exactly when the headers map
is non-nil AND non-empty, while a nil or empty map reaches the error
check and returns the error. -/
def SaveNetworkFile (reqOk : Bool) (doResult : Option HttpResponse) (readOk tPut : Bool)
    (store : Store) (targetUrl destinationBucket destinationPath : String)
    (headers : Option (List (String × String))) : Option NetOutcome :=
  if reqOk then
    let req : HttpRequest := ⟨"GET", targetUrl, headers.getD []⟩
    match doResult with
    | none => some ⟨some req, none, some "client.Do", store⟩
    | some resp =>
      if readOk then
        let put := PutFile tPut store destinationBucket destinationPath resp.body
        some ⟨some req, some resp.body,
              (match put.1 with
               | Except.ok _ => none
               | Except.error e => some e), put.2⟩
      else some ⟨some req, none, some "ioutil.ReadAll", store⟩
  else
    match headers with
    | some (_ :: _) => none
    | some [] => some ⟨none, none, some "http.NewRequest", store⟩
    | none => some ⟨none, none, some "http.NewRequest", store⟩

/-- The deadline, in seconds, that each operation of the layer installs
on its external calls: `PutFile` and `GetFile` use
`context.WithTimeout(ctx, Timeout)` with `Timeout = 60s`, `FilesAtPath`
uses a 30 second context, `ExistsObject` uses a bare
`context.Background()` with no deadline, and `SaveNetworkFile` uses the
zero-value `http.Client` whose `Timeout` field is unset (no deadline). -/
def layerDeadlines : List (String × Option Nat) :=
  [("PutFile", some 60), ("GetFile", some 60), ("FilesAtPath", some 30),
   ("Exists", none), ("SaveNetworkFile", none)]

/-- C8: on the successful path, `SaveNetworkFile` sends a GET request
for the target url carrying exactly the supplied extra headers, and for
every response — whatever its status code — it stores the full body at
the destination (when the store write goes through), returns that body
to the caller, and pairs it with the error of the store write if there
is one. -/
theorem saveNetworkFile_spec (status : Nat) (body : Bytes) (tPut : Bool) (store : Store)
    (targetUrl destinationBucket destinationPath : String)
    (headers : Option (List (String × String))) :
    SaveNetworkFile true (some ⟨status, body⟩) true tPut
        store targetUrl destinationBucket destinationPath headers
      = some ⟨some ⟨"GET", targetUrl, headers.getD []⟩, some body,
              (if tPut then none else some "storage.NewClient"),
              (if tPut then storeInsert store destinationBucket destinationPath body
               else store)⟩ := by
  cases tPut <;> simp [SaveNetworkFile, PutFile]

/-- C10, counterexample: with a non-nil but EMPTY headers map the
claimed nil dereference does not happen — the headers loop runs zero
iterations, so a failed `http.NewRequest` is returned to the caller as
an error rather than aborting. -/
theorem saveNetworkFile_empty_headers_no_abort :
    SaveNetworkFile false none false false (fun _ _ => none) "u" "b" "k" (some [])
      = some ⟨none, none, some "http.NewRequest", fun _ _ => none⟩ ∧
    SaveNetworkFile false none false false (fun _ _ => none) "u" "b" "k" (some [])
      ≠ none := by
  refine ⟨rfl, ?_⟩
  simp [SaveNetworkFile]

/-- C10, amended: when `http.NewRequest` fails and the headers map is
non-nil and non-empty, `SaveNetworkFile` dereferences the nil request
and aborts instead of returning the error; with a nil or empty headers
map the loop body never runs and the failure is returned to the caller
as an error. -/
theorem saveNetworkFile_nil_deref (doResult : Option HttpResponse) (readOk tPut : Bool)
    (store : Store) (targetUrl destinationBucket destinationPath : String)
    (hd : String × String) (rest : List (String × String)) :
    SaveNetworkFile false doResult readOk tPut
        store targetUrl destinationBucket destinationPath (some (hd :: rest)) = none ∧
    SaveNetworkFile false doResult readOk tPut
        store targetUrl destinationBucket destinationPath (some [])
      = some ⟨none, none, some "http.NewRequest", store⟩ ∧
    SaveNetworkFile false doResult readOk tPut
        store targetUrl destinationBucket destinationPath none
      = some ⟨none, none, some "http.NewRequest", store⟩ := by
  exact ⟨rfl, rfl, rfl⟩

/-- C7, counterexample: it is not the case that every operation of the
layer installs an explicit bounded deadline on its external calls — the
existence check and the HTTP fetch of the network import install
none. -/
theorem layerDeadlines_not_all_bounded :
    (layerDeadlines.all fun op => op.2.isSome) = false := by decide

/-- C7, amended: the blob-transfer operations install an explicit
60-second deadline and the listing a 30-second one — all on the order
of tens of seconds — but the existence check runs on a bare background
context with no deadline, and the network import uses a zero-value HTTP
client with no timeout set. -/
theorem layerDeadlines_amended :
    layerDeadlines.lookup "PutFile" = some (some 60) ∧
    layerDeadlines.lookup "GetFile" = some (some 60) ∧
    layerDeadlines.lookup "FilesAtPath" = some (some 30) ∧
    layerDeadlines.lookup "Exists" = some none ∧
    layerDeadlines.lookup "SaveNetworkFile" = some none ∧
    (layerDeadlines.all fun op => 10 ≤ op.2.getD 10 && op.2.getD 10 ≤ 60) = true := by
  decide

/-- A Go map from names to contents, as the runtime enumerates it: an
association list whose order records the (arbitrary) iteration order.
A Go map never holds a key twice, which is the `Nodup` hypothesis of
the round-trip theorem. -/
abbrev GoMap := List (String × Bytes)

/-- Lookup in a Go map. -/
def mapLookup : GoMap → String → Option Bytes
  | [], _ => none
  | (k, v) :: rest, j => if k = j then some v else mapLookup rest j

/-- Assignment `m[k] = v` in a Go map: replace the binding of `k` if
present, otherwise add one. -/
def mapInsert : GoMap → String → Bytes → GoMap
  | [], k, v => [(k, v)]
  | (k0, v0) :: rest, k, v =>
    if k0 = k then (k0, v) :: rest else (k0, v0) :: mapInsert rest k v

/-- Archive bytes, at the level of the external zip codec contract: a
valid archive decodes to its exact sequence of (name, content) entries,
anything else fails to decode.  The codec is lossless, so the emitted
bytes are identified with the entry sequence they decode to. -/
abbrev ZipBytes := Option (List (String × Bytes))

/-- Zip from the source: for each map entry, in iteration order, create
an archive entry named by the map key and write the content, then close
the writer.  The writer state is the entry list built so far. -/
def Zip (files : GoMap) : ZipBytes :=
  some (files.foldl (fun acc e => acc ++ [e]) [])

/-- UnZip from the source: decode the archive and fold its entries into
a fresh map with `result[entry.Name] = entryBytes`. -/
def UnZip (file : ZipBytes) : Except String GoMap :=
  match file with
  | none => Except.error "zip: not a valid zip archive"
  | some entries => Except.ok (entries.foldl (fun m e => mapInsert m e.1 e.2) [])

theorem foldl_snoc_eq (l acc : List (String × Bytes)) :
    l.foldl (fun a e => a ++ [e]) acc = acc ++ l := by
  induction l generalizing acc with
  | nil => simp
  | cons e rest ih => simp [List.foldl_cons, ih]

theorem mapLookup_mapInsert (m : GoMap) (k j : String) (v : Bytes) :
    mapLookup (mapInsert m k v) j = if k = j then some v else mapLookup m j := by
  induction m with
  | nil => simp [mapInsert, mapLookup]
  | cons e rest ih =>
    obtain ⟨k0, v0⟩ := e
    by_cases hk : k0 = k
    · subst hk; by_cases h0 : k0 = j <;> simp [mapInsert, mapLookup, h0]
    · by_cases h0 : k0 = j
      · subst h0
        have hkj : ¬ k = k0 := fun hh => hk hh.symm
        simp [mapInsert, mapLookup, hk, hkj]
      · simp [mapInsert, mapLookup, hk, h0, ih]

theorem mapLookup_eq_none_iff (m : GoMap) (j : String) :
    mapLookup m j = none ↔ j ∉ m.map Prod.fst := by
  induction m with
  | nil => simp [mapLookup]
  | cons e rest ih =>
    obtain ⟨k, v⟩ := e
    by_cases hk : k = j
    · subst hk; simp [mapLookup]
    · have hj : ¬ j = k := fun hh => hk hh.symm
      simp [mapLookup, hk, hj, ih]

theorem mapLookup_eq_some_iff :
    ∀ (m : GoMap), (m.map Prod.fst).Nodup → ∀ (j : String) (v : Bytes),
      (mapLookup m j = some v ↔ (j, v) ∈ m) := by
  intro m
  induction m with
  | nil => intro _ j v; simp [mapLookup]
  | cons e rest ih =>
    intro hnd j v
    obtain ⟨k, w⟩ := e
    simp only [List.map_cons, List.nodup_cons] at hnd
    obtain ⟨hknotin, hndrest⟩ := hnd
    by_cases hk : k = j
    · subst hk
      constructor
      · intro h
        have hv : w = v := by
          have hs : some w = some v := by simpa [mapLookup] using h
          exact Option.some.inj hs
        subst hv
        exact List.mem_cons_self _ _
      · intro h
        rcases List.mem_cons.mp h with hh | hmem
        · have hv : v = w := congrArg Prod.snd hh
          simp [mapLookup, hv]
        · exact absurd (List.mem_map.mpr ⟨(k, v), hmem, rfl⟩) hknotin
    · have hj : ¬ (j, v) = (k, w) := by
        intro hh
        exact hk (congrArg Prod.fst hh).symm
      simp [mapLookup, hk, ih hndrest, List.mem_cons, hj]

theorem mapLookup_perm (m1 m2 : GoMap) (hnd : (m1.map Prod.fst).Nodup)
    (hp : m1.Perm m2) (j : String) : mapLookup m1 j = mapLookup m2 j := by
  have hnd2 : (m2.map Prod.fst).Nodup := ((hp.map Prod.fst).nodup_iff).mp hnd
  cases h : mapLookup m1 j with
  | some v =>
    have hm := (mapLookup_eq_some_iff m1 hnd j v).mp h
    exact ((mapLookup_eq_some_iff m2 hnd2 j v).mpr (hp.mem_iff.mp hm)).symm
  | none =>
    have hn := (mapLookup_eq_none_iff m1 j).mp h
    have hn2 : j ∉ m2.map Prod.fst := fun hc => hn ((hp.map Prod.fst).mem_iff.mpr hc)
    exact ((mapLookup_eq_none_iff m2 j).mpr hn2).symm

theorem unzipFold_lookup :
    ∀ (l : GoMap), (l.map Prod.fst).Nodup → ∀ (acc : GoMap) (j : String),
      mapLookup (l.foldl (fun m e => mapInsert m e.1 e.2) acc) j
        = if j ∈ l.map Prod.fst then mapLookup l j else mapLookup acc j := by
  intro l
  induction l with
  | nil => intro _ acc j; simp
  | cons e rest ih =>
    intro hnd acc j
    obtain ⟨k, v⟩ := e
    simp only [List.map_cons, List.nodup_cons] at hnd
    obtain ⟨hknotin, hndrest⟩ := hnd
    simp only [List.foldl_cons]
    rw [ih hndrest]
    by_cases hjr : j ∈ rest.map Prod.fst
    · have hjk : ¬ k = j := fun hh => hknotin (hh ▸ hjr)
      have hmem : j ∈ (((k, v) :: rest).map Prod.fst) := by
        simp [List.mem_cons, hjr]
      simp [hjr, hmem, mapLookup, hjk]
    · by_cases hkj : k = j
      · subst hkj
        simp [mapLookup_mapInsert, mapLookup, hjr]
      · have hjk : ¬ j = k := fun hh => hkj hh.symm
        simp [mapLookup_mapInsert, mapLookup, hjr, hkj, hjk]

/-- C2: for every mapping of names to byte sequences (a Go map, keys
distinct), unzipping the zipped archive succeeds and reproduces the
mapping exactly — same names, byte-for-byte identical contents — and
the result does not depend on the iteration order in which `Zip`
visited the map (any permutation of the enumeration yields the same
mapping). -/
theorem zip_unzip_roundtrip (files files2 : GoMap)
    (hnd : (files.map Prod.fst).Nodup) (hperm : files.Perm files2) :
    ∃ m, UnZip (Zip files) = Except.ok m ∧
      (∀ j, mapLookup m j = mapLookup files j) ∧
      ∀ m2, UnZip (Zip files2) = Except.ok m2 → ∀ j, mapLookup m2 j = mapLookup m j := by
  have hz : Zip files = some files := by simp [Zip, foldl_snoc_eq]
  have hz2 : Zip files2 = some files2 := by simp [Zip, foldl_snoc_eq]
  have hnd2 : (files2.map Prod.fst).Nodup := ((hperm.map Prod.fst).nodup_iff).mp hnd
  refine ⟨files.foldl (fun m e => mapInsert m e.1 e.2) [], by rw [hz]; rfl, ?_, ?_⟩
  · intro j
    rw [unzipFold_lookup files hnd [] j]
    by_cases hj : j ∈ files.map Prod.fst
    · simp [hj]
    · rw [if_neg hj]
      exact (((mapLookup_eq_none_iff files j).mpr hj).symm : mapLookup [] j = _)
  · intro m2 hm2 j
    rw [hz2] at hm2
    have hm2e : files2.foldl (fun m e => mapInsert m e.1 e.2) [] = m2 := by
      injection hm2
    rw [← hm2e, unzipFold_lookup files2 hnd2 [] j, unzipFold_lookup files hnd [] j]
    by_cases hj : j ∈ files.map Prod.fst
    · have hj2 : j ∈ files2.map Prod.fst := (hperm.map Prod.fst).mem_iff.mp hj
      rw [if_pos hj, if_pos hj2]
      exact (mapLookup_perm files files2 hnd hperm j).symm
    · have hj2 : j ∉ files2.map Prod.fst := fun hc =>
        hj ((hperm.map Prod.fst).mem_iff.mpr hc)
      rw [if_neg hj, if_neg hj2]

/-- Witness for C2 on the two-entry map and a swapped enumeration. -/
theorem zip_unzip_roundtrip_witness :
    ∃ m, UnZip (Zip [("a", [1]), ("b", [2])]) = Except.ok m ∧
      (∀ j, mapLookup m j = mapLookup [("a", [1]), ("b", [2])] j) ∧
      ∀ m2, UnZip (Zip [("b", [2]), ("a", [1])]) = Except.ok m2 →
        ∀ j, mapLookup m2 j = mapLookup m j :=
  zip_unzip_roundtrip [("a", [1]), ("b", [2])] [("b", [2]), ("a", [1])]
    (by decide) (by decide)

/-- strings.Split from the Go standard library, on character lists:
split around every occurrence of the separator.  The result is never
empty; splitting the empty string yields one empty segment. -/
def goSplit (sep : Char) : List Char → List (List Char)
  | [] => [[]]
  | c :: rest =>
    if c = sep then [] :: goSplit sep rest
    else
      match goSplit sep rest with
      | [] => [[c]]
      | s :: ss => (c :: s) :: ss

/-- The metadata view wrapping the attributes of a stored object; the
layer reads the bucket and the object name.  Names are character
lists. -/
structure FileMetadata where
  bucket : String
  name : List Char
deriving DecidableEq

/-- FileName from the source: split the object name on the path
separator and take the last segment (the split is never empty). -/
def FileName (o : FileMetadata) : List Char :=
  (goSplit '/' o.name).getLastD []

/-- Modelled from the spec wording only (used on the specification side
of the refinement theorem for the leaf name): the final slash-delimited
segment of a key, i.e. the longest suffix containing no slash. -/
def lastSegmentSpec (name : List Char) : List Char :=
  (name.reverse.takeWhile (fun c => c != '/')).reverse

/-- The iterator loop of FilesAtPath: append a view for every
enumerated object whose derived leaf name is non-empty. -/
def listLoop (acc : List FileMetadata) : List FileMetadata → List FileMetadata
  | [] => acc
  | a :: rest =>
    if (FileName a).isEmpty then listLoop acc rest
    else listLoop (acc ++ [a]) rest

/-- A Go slice during the in-place filter pass: the cells of the
backing array that the captured range header can reach, and the
current slice length. -/
structure GoSlice where
  arr : List FileMetadata
  len : Nat

/-- The removal `result = append(result[:i], result[i+1:]...)` from the
source: shift the elements after position `i` one cell to the left
inside the shared backing array (cells from the old length onward keep
their stale values) and shorten the slice by one.  Slicing
`result[i+1:]` demands `i + 1 ≤ len(result)` and otherwise aborts with
a bounds panic, modelled as `none`. -/
def removeAt (s : GoSlice) (i : Nat) : Option GoSlice :=
  if i + 1 ≤ s.len then
    some ⟨s.arr.take i ++ (s.arr.take s.len).drop (i + 1) ++ s.arr.drop (s.len - 1),
          s.len - 1⟩
  else none

/-- The filter pass of FilesAtPath: `for i, object := range result`
iterates over the slice header captured at loop entry — indices `0`
through the original length minus one — but reads each `object` from
the shared backing array as mutated by the earlier removals. -/
def filterLoop (p : FileMetadata → Bool) : List Nat → GoSlice → Option GoSlice
  | [], s => some s
  | i :: rest, s =>
    match s.arr[i]? with
    | none => none
    | some object =>
      if p object then filterLoop p rest s
      else
        match removeAt s i with
        | none => none
        | some s2 => filterLoop p rest s2

/-- FilesAtPath from the source, over the sequence of objects that the
external store iterator yields for the bucket and prefix.  The
optional variadic filter argument is an optional predicate; `none` as
a result is the abort outcome of a bounds panic in the filter pass. -/
def FilesAtPath (entries : List FileMetadata)
    (filter : Option (FileMetadata → Bool)) : Option (List FileMetadata) :=
  let result := listLoop [] entries
  match filter with
  | none => some result
  | some p =>
    match filterLoop p (List.range result.length) ⟨result, result.length⟩ with
    | none => none
    | some s => some (s.arr.take s.len)

theorem goSplit_ne_nil (sep : Char) (l : List Char) : goSplit sep l ≠ [] := by
  cases l with
  | nil => simp [goSplit]
  | cons c rest =>
    simp only [goSplit]
    split
    · exact List.cons_ne_nil _ _
    · split <;> exact List.cons_ne_nil _ _

theorem goSplit_of_not_mem (sep : Char) :
    ∀ l : List Char, sep ∉ l → goSplit sep l = [l] := by
  intro l
  induction l with
  | nil => intro _; rfl
  | cons c rest ih =>
    intro h
    have hc : ¬ c = sep := fun hh => h (hh ▸ List.mem_cons_self c rest)
    have hrest : sep ∉ rest := fun hh => h (List.mem_cons_of_mem c hh)
    simp [goSplit, hc, ih hrest]

theorem goSplit_eq_singleton (sep : Char) :
    ∀ (l s : List Char), goSplit sep l = [s] → s = l ∧ sep ∉ l := by
  intro l
  induction l with
  | nil =>
    intro s h
    simp only [goSplit] at h
    injection h with h1 _
    exact ⟨h1.symm, by simp⟩
  | cons c rest ih =>
    intro s h
    by_cases hc : c = sep
    · rw [show goSplit sep (c :: rest) = [] :: goSplit sep rest from by
        simp [goSplit, hc]] at h
      injection h with _ h2
      exact absurd h2 (goSplit_ne_nil sep rest)
    · cases hg : goSplit sep rest with
      | nil => exact absurd hg (goSplit_ne_nil sep rest)
      | cons s0 ss =>
        rw [show goSplit sep (c :: rest) = (c :: s0) :: ss from by
          simp [goSplit, hc, hg]] at h
        injection h with h1 h2
        subst h2
        obtain ⟨hs0, hnm⟩ := ih s0 hg
        subst hs0
        refine ⟨h1.symm, ?_⟩
        intro hmem
        rcases List.mem_cons.mp hmem with hh | hh
        · exact hc hh.symm
        · exact hnm hh

theorem takeWhile_append_of_last_false (p : Char → Bool) (a : Char) (ha : p a = false) :
    ∀ xs : List Char, (xs ++ [a]).takeWhile p = xs.takeWhile p := by
  intro xs
  induction xs with
  | nil => simp [List.takeWhile, ha]
  | cons x xs ih =>
    by_cases hx : p x = true
    · simp [List.takeWhile_cons, hx, ih]
    · simp [List.takeWhile_cons, hx]

theorem takeWhile_append_of_mem_false (p : Char → Bool) :
    ∀ (xs ys : List Char) (b : Char), b ∈ xs → p b = false →
      (xs ++ ys).takeWhile p = xs.takeWhile p := by
  intro xs
  induction xs with
  | nil =>
    intro ys b hb _
    exact absurd hb (List.not_mem_nil b)
  | cons x xs ih =>
    intro ys b hb hpb
    by_cases hx : p x = true
    · have hbxs : b ∈ xs := by
        rcases List.mem_cons.mp hb with hh | hh
        · rw [hh] at hpb; rw [hx] at hpb; cases hpb
        · exact hh
      simp [List.takeWhile_cons, hx, ih ys b hbxs hpb]
    · simp [List.takeWhile_cons, hx]

theorem goSplit_getLastD (sep : Char) :
    ∀ l : List Char,
      (goSplit sep l).getLastD [] = (l.reverse.takeWhile (fun c => c != sep)).reverse := by
  intro l
  induction l with
  | nil => simp [goSplit]
  | cons c rest ih =>
    by_cases hc : c = sep
    · rw [show goSplit sep (c :: rest) = [] :: goSplit sep rest from by simp [goSplit, hc]]
      rw [List.getLastD_cons, List.reverse_cons]
      rw [takeWhile_append_of_last_false _ c (by simp [hc]) rest.reverse]
      exact ih
    · cases hg : goSplit sep rest with
      | nil => exact absurd hg (goSplit_ne_nil sep rest)
      | cons s ss =>
        rw [show goSplit sep (c :: rest) = (c :: s) :: ss from by simp [goSplit, hc, hg]]
        cases ss with
        | nil =>
          obtain ⟨hs, hnm⟩ := goSplit_eq_singleton sep rest s hg
          rw [hs]
          rw [List.getLastD_cons, List.reverse_cons]
          have hall : (rest.reverse ++ [c]).takeWhile (fun x => x != sep)
              = rest.reverse ++ [c] := by
            apply List.takeWhile_eq_self_iff.mpr
            intro x hx
            rcases List.mem_append.mp hx with hh | hh
            · have hxs : x ∈ rest := List.mem_reverse.mp hh
              exact bne_iff_ne.mpr (fun he => hnm (he ▸ hxs))
            · have hxc : x = c := by simpa using hh
              exact bne_iff_ne.mpr (by rw [hxc]; exact hc)
          rw [hall]
          simp
        | cons s2 ss2 =>
          have hsep : sep ∈ rest := by
            by_contra hnm
            have hone := goSplit_of_not_mem sep rest hnm
            rw [hg] at hone
            injection hone with _ h2
            cases h2
          rw [List.getLastD_cons, List.getLastD_cons]
          have hlhs : ss2.getLastD s2 = (goSplit sep rest).getLastD [] := by
            rw [hg, List.getLastD_cons, List.getLastD_cons]
          rw [hlhs, ih, List.reverse_cons]
          rw [takeWhile_append_of_mem_false _ rest.reverse [c] sep
            (List.mem_reverse.mpr hsep) (by simp)]

theorem listLoop_eq_filter :
    ∀ (l : List FileMetadata) (acc : List FileMetadata),
      listLoop acc l = acc ++ l.filter (fun a => !(FileName a).isEmpty) := by
  intro l
  induction l with
  | nil => intro acc; simp [listLoop]
  | cons a rest ih =>
    intro acc
    cases ha : (FileName a).isEmpty with
    | true => simp [listLoop, ha, ih]
    | false => simp [listLoop, ha, ih]

theorem removeAt_subset (s : GoSlice) (i : Nat) (s2 : GoSlice)
    (h : removeAt s i = some s2) : ∀ x, x ∈ s2.arr → x ∈ s.arr := by
  intro x hx
  simp only [removeAt] at h
  split at h
  · injection h with h2
    subst h2
    simp only [List.mem_append] at hx
    rcases hx with (hx | hx) | hx
    · exact List.take_subset i s.arr hx
    · exact List.take_subset s.len s.arr (List.drop_subset (i + 1) _ hx)
    · exact List.drop_subset (s.len - 1) s.arr hx
  · cases h

theorem filterLoop_subset (p : FileMetadata → Bool) :
    ∀ (idxs : List Nat) (s s2 : GoSlice),
      filterLoop p idxs s = some s2 → ∀ x, x ∈ s2.arr → x ∈ s.arr := by
  intro idxs
  induction idxs with
  | nil =>
    intro s s2 h x hx
    have hs : s = s2 := by simpa [filterLoop] using h
    rw [hs]
    exact hx
  | cons i rest ih =>
    intro s s2 h x hx
    cases hget : s.arr[i]? with
    | none => simp [filterLoop, hget] at h
    | some object =>
      by_cases hp : p object = true
      · have h2 : filterLoop p rest s = some s2 := by
          simpa [filterLoop, hget, hp] using h
        exact ih s s2 h2 x hx
      · cases hrem : removeAt s i with
        | none => simp [filterLoop, hget, hp, hrem] at h
        | some s3 =>
          have h2 : filterLoop p rest s3 = some s2 := by
            simpa [filterLoop, hget, hp, hrem] using h
          exact removeAt_subset s i s3 hrem x (ih s3 s2 h2 x hx)

/-- C9: the derived leaf name of a metadata view is exactly the final
slash-delimited segment of the object name (the longest suffix without
a slash), the unfiltered enumeration is exactly the enumerated objects
with a non-empty leaf name in order, and every view FilesAtPath
returns — also through the filtered path — has a non-empty leaf
name. -/
theorem fileName_last_segment_and_empty_excluded :
    (∀ o : FileMetadata, FileName o = lastSegmentSpec o.name) ∧
    (∀ entries : List FileMetadata,
        FilesAtPath entries none
          = some (entries.filter (fun a => !(FileName a).isEmpty))) ∧
    (∀ (entries : List FileMetadata) (p : FileMetadata → Bool) (res : List FileMetadata),
        FilesAtPath entries (some p) = some res →
          ∀ o, o ∈ res → (FileName o).isEmpty = false) := by
  refine ⟨?_, ?_, ?_⟩
  · intro o
    exact goSplit_getLastD '/' o.name
  · intro entries
    simp [FilesAtPath, listLoop_eq_filter]
  · intro entries p res h o ho
    simp only [FilesAtPath] at h
    cases hfl : filterLoop p (List.range (listLoop [] entries).length)
        ⟨listLoop [] entries, (listLoop [] entries).length⟩ with
    | none => rw [hfl] at h; cases h
    | some s =>
      rw [hfl] at h
      injection h with h1
      subst h1
      have hmem : o ∈ s.arr := List.take_subset s.len s.arr ho
      have hmem2 : o ∈ listLoop [] entries :=
        filterLoop_subset p _ _ s hfl o hmem
      rw [listLoop_eq_filter entries []] at hmem2
      simp only [List.nil_append] at hmem2
      have hf := List.of_mem_filter hmem2
      simpa using hf

/-- Witness for C9 on a one-object enumeration with the always-true
predicate. -/
theorem fileName_last_segment_and_empty_excluded_witness :
    (FileName ⟨"b", ['x', '/', 'f']⟩).isEmpty = false :=
  fileName_last_segment_and_empty_excluded.2.2
    [⟨"b", ['x', '/', 'f']⟩] (fun _ => true) [⟨"b", ['x', '/', 'f']⟩] rfl
    ⟨"b", ['x', '/', 'f']⟩ (by decide)

/-- C1, evaluated at the failing input: with three enumerated objects
p/a, p/b, p/c and a predicate accepting only p/c, the filtered
`FilesAtPath` keeps the rejected p/b — the element that slides into a
removed slot is never tested — whereas the subsequence of the
unfiltered enumeration satisfying the predicate is just p/c. -/
theorem filesAtPath_filter_skips_after_removal :
    FilesAtPath
        [⟨"b", ['p', '/', 'a']⟩, ⟨"b", ['p', '/', 'b']⟩, ⟨"b", ['p', '/', 'c']⟩]
        (some fun o => decide (o.name = ['p', '/', 'c']))
      = some [⟨"b", ['p', '/', 'b']⟩, ⟨"b", ['p', '/', 'c']⟩] ∧
    (listLoop []
        [⟨"b", ['p', '/', 'a']⟩, ⟨"b", ['p', '/', 'b']⟩, ⟨"b", ['p', '/', 'c']⟩]).filter
        (fun o => decide (o.name = ['p', '/', 'c']))
      = [⟨"b", ['p', '/', 'c']⟩] := by
  exact ⟨rfl, rfl⟩

end CloudStorage
